import Mathlib

/-!
A verification development for the cbforest core: the Compact Value Encoding
(writer `DataWriter.cc`, reader `Data.cc`) and the transactional document store
(`Database.cc`).  Byte strings are modelled as `List Nat` (each entry a byte
value), machine integers as `Nat`/`Int` with explicit `% 2 ^ w` where overflow
matters, and fallible code as `Option`/`Except`.
-/

namespace forestdb

/-! ### Type codes

Modelled from the spec: the `typeCode` enumeration lives in `Data.hh`, which is
not part of the sources here; the values below are the spec's table in section 6
(one byte each, `0x00`..`0x13`). -/

def kNullCode : Nat := 0x00
def kFalseCode : Nat := 0x01
def kTrueCode : Nat := 0x02
def kInt8Code : Nat := 0x03
def kInt16Code : Nat := 0x04
def kInt32Code : Nat := 0x05
def kInt64Code : Nat := 0x06
def kUInt64Code : Nat := 0x07
def kFloat32Code : Nat := 0x08
def kFloat64Code : Nat := 0x09
def kRawNumberCode : Nat := 0x0A
def kDateCode : Nat := 0x0B
def kStringCode : Nat := 0x0C
def kSharedStringCode : Nat := 0x0D
def kSharedStringRefCode : Nat := 0x0E
def kExternStringCode : Nat := 0x0F
def kExternStringRefCode : Nat := 0x10
def kDataCode : Nat := 0x11
def kArrayCode : Nat := 0x12
def kDictCode : Nat := 0x13

/-! ### Variable-length integers

Modelled from the spec: `varint.hh` is not part of the sources.  Section 4.1:
seven payload bits per byte, high bit set on every byte except the last,
little-endian order; `GetUVarInt` consumes until a byte with the high bit
clear and treats more than 10 bytes as malformed (modelled as `none`). -/

def putUVarIntAux : Nat → Nat → List Nat
  | _, 0 => []
  | n, f + 1 => if n < 128 then [n] else (n % 128 + 128) :: putUVarIntAux (n / 128) f

/-- `PutUVarInt` emits at most 10 bytes; the recursion is bounded by that
writer-side maximum (every unsigned 64-bit value needs at most 10 groups). -/
def putUVarInt (n : Nat) : List Nat :=
  putUVarIntAux n 10

def getUVarIntAux : List Nat → Nat → Option (Nat × Nat)
  | _, 0 => none
  | [], _ => none
  | b :: rest, k + 1 =>
    if b < 128 then some (b, 1)
    else
      match getUVarIntAux rest k with
      | some (v, c) => some (v * 128 + (b - 128), c + 1)
      | none => none

/-- Returns the decoded value and the number of bytes consumed. -/
def getUVarInt (bs : List Nat) : Option (Nat × Nat) :=
  getUVarIntAux bs 10

/-! ### MurmurHash3

Modelled from the spec: `murmurhash3_x86_32.h` is external to the sources.
Section 4.3 specifies MurmurHash3_x86_32 with seed 0; the 32-bit algorithm is
transcribed here over `Nat` with explicit reductions `% 2 ^ 32`. -/

def rotl32 (x r : Nat) : Nat :=
  ((x <<< r) % 2 ^ 32) ||| (x >>> (32 - r))

def murmurStep (h k : Nat) : Nat :=
  let k := (k * 0xcc9e2d51) % 2 ^ 32
  let k := rotl32 k 15
  let k := (k * 0x1b873593) % 2 ^ 32
  let h := h ^^^ k
  let h := rotl32 h 13
  (h * 5 + 0xe6546b64) % 2 ^ 32

def murmurBody (h : Nat) : List Nat → Nat × List Nat
  | b0 :: b1 :: b2 :: b3 :: rest =>
    murmurBody (murmurStep h (b0 + (b1 <<< 8) + (b2 <<< 16) + (b3 <<< 24))) rest
  | l => (h, l)

def murmurTail (h : Nat) (tail : List Nat) : Nat :=
  match tail with
  | [] => h
  | _ =>
    let k :=
      match tail with
      | [t0] => t0
      | [t0, t1] => t0 + (t1 <<< 8)
      | [t0, t1, t2] => t0 + (t1 <<< 8) + (t2 <<< 16)
      | _ => 0
    let k := (k * 0xcc9e2d51) % 2 ^ 32
    let k := rotl32 k 15
    let k := (k * 0x1b873593) % 2 ^ 32
    h ^^^ k

def fmix32 (h : Nat) : Nat :=
  let h := h ^^^ (h >>> 16)
  let h := (h * 0x85ebca6b) % 2 ^ 32
  let h := h ^^^ (h >>> 13)
  let h := (h * 0xc2b2ae35) % 2 ^ 32
  h ^^^ (h >>> 16)

def murmur3_x86_32 (data : List Nat) (seed : Nat) : Nat :=
  let r := murmurBody seed data
  let h := murmurTail r.1 r.2
  fmix32 (h ^^^ data.length)

/-- `dict::hashCode` (Data.cc:187-191): MurmurHash3_x86_32 with seed 0,
truncated to the low 16 bits. -/
def dict.hashCode (s : List Nat) : Nat :=
  murmur3_x86_32 s 0 % 2 ^ 16

/-! ### Association lists

`std::unordered_map` is modelled by an association list.  `lookupShared`
mirrors `_sharedStrings[str]` in `dataWriter::writeString`: `operator[]`
default-constructs the mapped value, so an absent key reads as offset `0`. -/

def assocFind (m : List (List Nat × Nat)) (k : List Nat) : Option Nat :=
  match m with
  | [] => none
  | (k1, v) :: rest => if k1 = k then some v else assocFind rest k

def assocSet (m : List (List Nat × Nat)) (k : List Nat) (v : Nat) :
    List (List Nat × Nat) :=
  match m with
  | [] => [(k, v)]
  | (k1, v1) :: rest =>
    if k1 = k then (k, v) :: rest else (k1, v1) :: assocSet rest k v

def lookupShared (m : List (List Nat × Nat)) (k : List Nat) : Nat :=
  (assocFind m k).getD 0

/-! ### The writer (DataWriter.cc)

The output stream is the byte list `out`; `tellp()` is `out.length` because the
writer only appends, except for the two explicit `seekp` patches (shared-string
tags and dict hash slots), modelled with `List.set`. -/

structure dataWriter where
  out : List Nat
  sharedStrings : List (List Nat × Nat)
  externStrings : Option (List (List Nat × Nat))
  indexPos : Nat
  savedIndexPos : List Nat
deriving DecidableEq

/-- `dataWriter::dataWriter` (DataWriter.cc:17-21). -/
def mkWriter (ext : Option (List (List Nat × Nat))) : dataWriter :=
  ⟨[], [], ext, 0, []⟩

def dataWriter.addTypeCode (w : dataWriter) (c : Nat) : dataWriter :=
  { w with out := w.out ++ [c] }

/-- `dataWriter::addUVarint` (DataWriter.cc:23-26). -/
def dataWriter.addUVarint (w : dataWriter) (n : Nat) : dataWriter :=
  { w with out := w.out ++ putUVarInt n }

/-- `dataWriter::writeNull` (DataWriter.cc:28-30). -/
def dataWriter.writeNull (w : dataWriter) : dataWriter :=
  w.addTypeCode kNullCode

/-- `dataWriter::writeBool` (DataWriter.cc:32-34). -/
def dataWriter.writeBool (w : dataWriter) (b : Bool) : dataWriter :=
  w.addTypeCode (if b then kTrueCode else kFalseCode)

/-- The 8 little-endian bytes of the two's-complement representation of `i`. -/
def int64LE (i : Int) : List Nat :=
  let n := (i % (2 : Int) ^ 64).toNat
  [n % 256, n / 256 % 256, n / 256 ^ 2 % 256, n / 256 ^ 3 % 256,
   n / 256 ^ 4 % 256, n / 256 ^ 5 % 256, n / 256 ^ 6 % 256, n / 256 ^ 7 % 256]

/-- The 8 little-endian bytes of an unsigned 64-bit value. -/
def nat64LE (u : Nat) : List Nat :=
  [u % 256, u / 256 % 256, u / 256 ^ 2 % 256, u / 256 ^ 3 % 256,
   u / 256 ^ 4 % 256, u / 256 ^ 5 % 256, u / 256 ^ 6 % 256, u / 256 ^ 7 % 256]

/-- The bytes emitted by `dataWriter::writeInt` (DataWriter.cc:36-54): the
smallest of the four signed widths that fits `i`, little-endian payload
(a prefix of the 8-byte buffer filled by `memcpy`). -/
def writeIntBytes (i : Int) : List Nat :=
  if -128 ≤ i ∧ i ≤ 127 then kInt8Code :: (int64LE i).take 1
  else if -32768 ≤ i ∧ i ≤ 32767 then kInt16Code :: (int64LE i).take 2
  else if -(2 ^ 31) ≤ i ∧ i ≤ 2 ^ 31 - 1 then kInt32Code :: (int64LE i).take 4
  else kInt64Code :: int64LE i

/-- `dataWriter::writeInt` (DataWriter.cc:36-54). -/
def dataWriter.writeInt (w : dataWriter) (i : Int) : dataWriter :=
  { w with out := w.out ++ writeIntBytes i }

/-- `dataWriter::writeUInt` (DataWriter.cc:56-61): `if (u < INT64_MAX) return
writeInt((int64_t)u);` — INT64_MAX is `2 ^ 63 - 1`; the cast is the identity in
that range.  Otherwise `kUInt64Code` plus 8 little-endian bytes. -/
def dataWriter.writeUInt (w : dataWriter) (u : Nat) : dataWriter :=
  if u < 2 ^ 63 - 1 then w.writeInt (Int.ofNat u)
  else { w with out := w.out ++ kUInt64Code :: nat64LE u }

/-- `dataWriter::writeDate` (DataWriter.cc:77-80). -/
def dataWriter.writeDate (w : dataWriter) (t : Nat) : dataWriter :=
  (w.addTypeCode kDateCode).addUVarint t

/-- The extern-table probe at the top of `dataWriter::writeString`
(DataWriter.cc:93-101): only consulted when a table was bound. -/
def dataWriter.externLookup (w : dataWriter) (s : List Nat) : Option Nat :=
  match w.externStrings with
  | none => none
  | some tbl => assocFind tbl s

/-- `dataWriter::writeString` (DataWriter.cc:92-127).  `kMinSharedStringLength
= 4`, `kMaxSharedStringLength = 100` (DataWriter.cc:15).  In the sharing branch
the code seeks back to `sharedOffset`, overwrites the earlier tag byte with
`kSharedStringCode`, seeks forward again and emits `kSharedStringRefCode` plus
the varint distance `curOffset - sharedOffset`. -/
def dataWriter.writeString (w : dataWriter) (s : List Nat) : dataWriter :=
  match w.externLookup s with
  | some id =>
    { w with out := w.out ++ kExternStringRefCode :: putUVarInt id }
  | none =>
    let len := s.length
    if 4 ≤ len ∧ len ≤ 100 then
      let curOffset := w.out.length
      let sharedOffset := lookupShared w.sharedStrings s
      if 0 < sharedOffset then
        { w with out := (w.out.set sharedOffset kSharedStringCode)
                          ++ kSharedStringRefCode
                          :: putUVarInt (curOffset - sharedOffset) }
      else
        { w with out := w.out ++ kStringCode :: putUVarInt len ++ s,
                 sharedStrings := assocSet w.sharedStrings s curOffset }
    else
      { w with out := w.out ++ kStringCode :: putUVarInt len ++ s }

/-- `dataWriter::beginDict` (DataWriter.cc:134-143): tag, count varint, then
`count` zeroed 16-bit hash slots; `_indexPos` is saved on a stack and reset to
the position of the first slot. -/
def dataWriter.beginDict (w : dataWriter) (count : Nat) : dataWriter :=
  let w := (w.addTypeCode kDictCode).addUVarint count
  let w := { w with savedIndexPos := w.indexPos :: w.savedIndexPos,
                    indexPos := w.out.length }
  { w with out := w.out ++ List.replicate (2 * count) 0 }

/-- `dataWriter::writeKey` (DataWriter.cc:145-155): seek back to `_indexPos`,
write the 16-bit hash (little-endian), advance `_indexPos`, seek forward, then
write the key string. -/
def dataWriter.writeKey (w : dataWriter) (s : List Nat) : dataWriter :=
  let h := dict.hashCode s
  let w := { w with out := (w.out.set w.indexPos (h % 256)).set
                             (w.indexPos + 1) (h / 256),
                    indexPos := w.indexPos + 2 }
  w.writeString s

/-- `dataWriter::endDict` (DataWriter.cc:161-164): pop the saved index
position (the stack is never empty when `endDict` is reached). -/
def dataWriter.endDict (w : dataWriter) : dataWriter :=
  { w with indexPos := w.savedIndexPos.headD 0,
           savedIndexPos := w.savedIndexPos.tail }

/-! ### The reader (Data.cc)

A `value` is addressed by a byte offset `i` into the encoded region `bs`; the
byte at `i` is `_typeCode` and `_paramStart` is `i + 1`.  Thrown exceptions
(`"bad typecode"`, `"value is not a string"`, `"invalid shared-string"`, the
extern-table failure) are modelled as `none`; reads past the end of the region
(undefined behaviour in the C++) are also `none`. -/

def byteAt (bs : List Nat) (i : Nat) : Option Nat :=
  bs.get? i

/-- `value::getParam` (Data.cc:42-46): decode the varint at `_paramStart`,
returning the parameter and the offset just past it. -/
def getParamAt (bs : List Nat) (i : Nat) : Option (Nat × Nat) :=
  match getUVarInt (bs.drop (i + 1)) with
  | some (v, c) => some (v, i + 1 + c)
  | none => none

/-- A 16-bit little-endian load, as in `dict::get`'s hash-slot array. -/
def readUInt16At (bs : List Nat) (i : Nat) : Option Nat :=
  match byteAt bs i, byteAt bs (i + 1) with
  | some lo, some hi => some (lo + 256 * hi)
  | _, _ => none

/-- `value::next` (Data.cc:48-89), with explicit fuel bounding the recursion
into array elements and dict key/value pairs.  The first switch returns a
constant advance for `kNullCode...kTrueCode` and the four `kInt*` codes only;
every other code falls through to the varint read, and codes absent from the
second switch hit `default: throw "bad typecode"`.  The `kArrayCode` case
walks `count` child values and the `kDictCode` case walks `count` key/value
pairs (`2 * count` single `next` steps) starting after the hash slots,
failure at any child aborting the walk. -/
def value.next : Nat → List Nat → Nat → Option Nat
  | 0, _, _ => none
  | f + 1, bs, i =>
    match byteAt bs i with
    | none => none
    | some c =>
      if c = kNullCode ∨ c = kFalseCode ∨ c = kTrueCode then some (i + 1)
      else if c = kInt8Code then some (i + 2)
      else if c = kInt16Code then some (i + 3)
      else if c = kInt32Code then some (i + 5)
      else if c = kInt64Code then some (i + 9)
      else
        match getParamAt bs i with
        | none => none
        | some (param, after) =>
          if c = kStringCode ∨ c = kRawNumberCode ∨ c = kDataCode then
            some (after + param)
          else if c = kSharedStringCode ∨ c = kExternStringCode then
            some after
          else if c = kArrayCode then
            (List.range param).foldlM (fun pos _ => value.next f bs pos) after
          else if c = kDictCode then
            (List.range (2 * param)).foldlM (fun pos _ => value.next f bs pos)
              (after + 2 * param)
          else
            none

/-- `value::asString` (Data.cc:139-157).  The switch handles `kStringCode`
(direct payload), `kSharedStringCode` (the parameter is added to `this` by
`offsetby` and the target must be a `kStringCode`), and `kExternStringCode`
(always throws without a table); everything else — including
`kSharedStringRefCode` — reaches `default: throw "value is not a string"`. -/
def value.asString (bs : List Nat) (i : Nat) : Option (List Nat) :=
  match byteAt bs i, getParamAt bs i with
  | some c, some (param, payload) =>
    if c = kStringCode then some ((bs.drop payload).take param)
    else if c = kSharedStringCode then
      match byteAt bs (i + param) with
      | some c2 =>
        if c2 = kStringCode then
          match getParamAt bs (i + param) with
          | some (param2, payload2) => some ((bs.drop payload2).take param2)
          | none => none
        else none
      | none => none
    else none
  | _, _ => none

/-- The lazy key-advancing loop of `dict::get` (Data.cc:202-205):
`key = key->next()->next()` repeated `n` times. -/
def dict.advanceKey (fuel : Nat) (bs : List Nat) : Nat → Nat → Option Nat
  | 0, off => some off
  | n + 1, off =>
    match value.next fuel bs off with
    | none => none
    | some off1 =>
      match value.next fuel bs off1 with
      | none => none
      | some off2 => dict.advanceKey fuel bs n off2

/-- The slot-scanning loop of `dict::get` (Data.cc:200-209).  `some none` is
the `return NULL` (key not found); `some (some v)` is a hit returning the
offset of the value (`key->next()`); `none` is a thrown exception. -/
def dict.getLoop (fuel : Nat) (bs : List Nat) (keyToFind : List Nat)
    (hashToFind : Nat) (after : Nat) :
    Nat → Nat → Nat → Nat → Option (Option Nat)
  | 0, _, _, _ => some none
  | remaining + 1, i, keyIndex, keyOffset =>
    match readUInt16At bs (after + 2 * i) with
    | none => none
    | some h =>
      if h = hashToFind then
        match dict.advanceKey fuel bs (i - keyIndex) keyOffset with
        | none => none
        | some koff =>
          match value.asString bs koff with
          | none => none
          | some str =>
            if str = keyToFind then
              match value.next fuel bs koff with
              | none => none
              | some voff => some (some voff)
            else
              dict.getLoop fuel bs keyToFind hashToFind after remaining
                (i + 1) i koff
      else
        dict.getLoop fuel bs keyToFind hashToFind after remaining
          (i + 1) keyIndex keyOffset

/-- `dict::get` (Data.cc:193-211): read the count, scan the `count` 16-bit
hash slots in order, lazily walking a key pointer that starts at
`&hashes[count]` (offset `after + 2 * count`). -/
def dict.get (fuel : Nat) (bs : List Nat) (self : Nat) (keyToFind : List Nat)
    (hashToFind : Nat) : Option (Option Nat) :=
  match getParamAt bs self with
  | none => none
  | some (count, after) =>
    dict.getLoop fuel bs keyToFind hashToFind after count 0 0
      (after + 2 * count)

/-! ### Statuses and the check helpers (Database.cc)

Thrown `error{status}` exceptions are modelled with `Except`. -/

inductive FdbStatus where
  | success
  | keyNotFound
  | iteratorFail
  | otherError
deriving DecidableEq

/-- The file-level `check` (Database.cc:53-56): throw on any non-success. -/
def check (s : FdbStatus) : Except FdbStatus Unit :=
  if s = .success then .ok () else .error s

/-- `checkGet` (Database.cc:90-95): `KEY_NOT_FOUND` becomes `false`; any other
failure is rethrown by `check`; success becomes `true`. -/
def checkGet (s : FdbStatus) : Except FdbStatus Bool :=
  if s = .keyNotFound then .ok false
  else
    match check s with
    | .ok _ => .ok true
    | .error e => .error e

/-! ### Documents (Database.cc:263-296) -/

structure Document where
  key : List Nat
  meta : List Nat
  body : List Nat
  seqnum : Nat
  offset : Nat
  deleted : Bool
deriving DecidableEq

/-- `Document::Document()` (Database.cc:265-267): all fields zeroed. -/
def emptyDoc : Document :=
  ⟨[], [], [], 0, 0, false⟩

/-- `Document::Document(slice key)` (Database.cc:269-272). -/
def mkDoc (k : List Nat) : Document :=
  { emptyDoc with key := k }

/-- `Document::clearMetaAndBody` (Database.cc:280-286). -/
def Document.clearMetaAndBody (d : Document) : Document :=
  { d with meta := [], body := [], seqnum := 0, offset := 0, deleted := false }

/-! ### The backing store

Modelled from the spec: the forestdb `fdb_*` calls are the out-of-scope
append-only KV store (spec sections 1 and 7: point reads of an absent
key/sequence report `KeyNotFound`).  A store is the list of its visible
stored records. -/

structure StoredDoc where
  key : List Nat
  meta : List Nat
  body : List Nat
  seqnum : Nat
  deleted : Bool
deriving DecidableEq

abbrev KVStore := List StoredDoc

def findByKey (st : KVStore) (k : List Nat) : Option StoredDoc :=
  st.find? (fun d => d.key == k)

def findBySeq (st : KVStore) (n : Nat) : Option StoredDoc :=
  st.find? (fun d => d.seqnum == n)

/-- Modelled from the spec: `fdb_get` / `fdb_get_metaonly` fill meta (and the
body unless meta-only) and the sequence number, or report `keyNotFound`. -/
def fdb_get (st : KVStore) (d : Document) (metaOnly : Bool) :
    FdbStatus × Document :=
  match findByKey st d.key with
  | some sd =>
    (.success, { d with meta := sd.meta,
                        body := if metaOnly then d.body else sd.body,
                        seqnum := sd.seqnum, deleted := sd.deleted })
  | none => (.keyNotFound, d)

/-- Modelled from the spec: `fdb_get_byseq` / `fdb_get_metaonly_byseq`. -/
def fdb_get_byseq (st : KVStore) (d : Document) (metaOnly : Bool) :
    FdbStatus × Document :=
  match findBySeq st d.seqnum with
  | some sd =>
    (.success, { d with key := sd.key, meta := sd.meta,
                        body := if metaOnly then d.body else sd.body,
                        deleted := sd.deleted })
  | none => (.keyNotFound, d)

/-- `DatabaseGetters::read` (Database.cc:113-119): clear the document, fetch,
and report presence through `checkGet`'s boolean. -/
def DatabaseGetters.read (st : KVStore) (doc : Document) (metaOnly : Bool) :
    Except FdbStatus (Bool × Document) :=
  let doc := doc.clearMetaAndBody
  let r := fdb_get st doc metaOnly
  match checkGet r.1 with
  | .ok b => .ok (b, r.2)
  | .error e => .error e

/-- `DatabaseGetters::get(slice key, ...)` (Database.cc:97-101): builds a
document for the key, `read`s it, and returns it regardless of presence. -/
def DatabaseGetters.get (st : KVStore) (key : List Nat) (metaOnly : Bool) :
    Except FdbStatus Document :=
  match DatabaseGetters.read st (mkDoc key) metaOnly with
  | .ok r => .ok r.2
  | .error e => .error e

/-- `DatabaseGetters::get(sequence seq, ...)` (Database.cc:103-111): the fetch
status goes through `check`, not `checkGet`. -/
def DatabaseGetters.getBySeq (st : KVStore) (seq : Nat) (metaOnly : Bool) :
    Except FdbStatus Document :=
  let doc := { emptyDoc with seqnum := seq }
  let r := fdb_get_byseq st doc metaOnly
  match check r.1 with
  | .ok _ => .ok r.2
  | .error e => .error e

/-! ### Enumeration over a vector of document IDs
(Database.cc:161-174 and 218-260)

`std::sort` orders the `std::string` IDs by the byte-lexicographic `<`.  The
backing iterator is modelled from the spec: `fdb_iterator_seek` positions the
cursor absolutely at the first stored key not below the requested one, and
`fdb_iterator_next` then returns that record or `ITERATOR_FAIL` past the end
(spec section 4.7: a seek landing on a different key makes the enumerator
synthesize an empty placeholder for the requested ID). -/

def lexLt : List Nat → List Nat → Bool
  | [], [] => false
  | [], _ :: _ => true
  | _ :: _, [] => false
  | a :: as, b :: bs =>
    if a < b then true else if b < a then false else lexLt as bs

def lexLe (a b : List Nat) : Bool :=
  !(lexLt b a)

def keyLe (a b : List Nat) : Prop :=
  lexLe a b = true

instance : DecidableRel keyLe :=
  fun a b => inferInstanceAs (Decidable (lexLe a b = true))

/-- The `std::sort` call in `DatabaseGetters::enumerate(docIDs, ...)`
(Database.cc:166), modelled as an insertion sort by the same order. -/
def sortIDs (ids : List (List Nat)) : List (List Nat) :=
  List.insertionSort keyLe ids

/-- The iterator cursor after `fdb_iterator_seek(k)` followed by
`fdb_iterator_next`: the first stored record whose key is not below `k`. -/
def seekGeq (st : KVStore) (k : List Nat) : Option StoredDoc :=
  st.find? (fun d => lexLe k d.key)

/-- The `Document` built from a record returned by the iterator. -/
def docOf (sd : StoredDoc) (metaOnly : Bool) : Document :=
  ⟨sd.key, sd.meta, if metaOnly then [] else sd.body, sd.seqnum, 0, sd.deleted⟩

/-- One round of the docID branch of `DocEnumerator::next`
(Database.cc:241-254): seek to the requested ID; if the doc that comes back
has a different key (or the iterator failed), replace it by
`fdb_doc_create(docID, NULL, NULL)` — an empty placeholder. -/
def seekDocFor (st : KVStore) (metaOnly : Bool) (d : List Nat) : Document :=
  match seekGeq st d with
  | some sd => if sd.key = d then docOf sd metaOnly else mkDoc d
  | none => mkDoc d

/-- What the claim says each requested ID should yield: the stored document
when the ID exists, an empty placeholder otherwise. -/
def docFor (st : KVStore) (metaOnly : Bool) (d : List Nat) : Document :=
  match findByKey st d with
  | some sd => docOf sd metaOnly
  | none => mkDoc d

/-- `DocEnumerator` state for the docID case: the backing iterator open or
closed, plus `_curDocID`'s tail of still-unvisited IDs. -/
structure DocEnumerator where
  isOpen : Bool
  metaOnly : Bool
  remaining : List (List Nat)
deriving DecidableEq

/-- `DocEnumerator::next` (Database.cc:218-260), docID branch: a closed
enumerator returns false; an exhausted ID vector closes the enumerator and
returns false; otherwise seek to the next ID and yield a document. -/
def DocEnumerator.next (st : KVStore) (e : DocEnumerator) :
    Option Document × DocEnumerator :=
  if e.isOpen then
    match e.remaining with
    | [] => (none, { e with isOpen := false, remaining := [] })
    | d :: rest => (some (seekDocFor st e.metaOnly d), { e with remaining := rest })
  else (none, e)

/-- `DatabaseGetters::enumerate(docIDs, options)` (Database.cc:161-174): an
empty vector yields the inert `DocEnumerator()`; otherwise the IDs are sorted
and a seeking enumerator is opened. -/
def enumerate (ids : List (List Nat)) (metaOnly : Bool) : DocEnumerator :=
  if ids.isEmpty then ⟨false, metaOnly, []⟩ else ⟨true, metaOnly, sortIDs ids⟩

/-- Repeatedly call `next` until it returns false, collecting the yielded
documents (the constructor's prefetch plus the caller's loop). -/
def drainAux (st : KVStore) : Nat → DocEnumerator → List Document × DocEnumerator
  | 0, e => ([], e)
  | fuel + 1, e =>
    match e.next st with
    | (some doc, e1) =>
      let r := drainAux st fuel e1
      (doc :: r.1, r.2)
    | (none, e1) => ([], e1)

def drain (st : KVStore) (e : DocEnumerator) : List Document × DocEnumerator :=
  drainAux st (e.remaining.length + 1) e

/-- The store precondition: the backing iterator hands out records in strictly
ascending key order. -/
def StoreSorted (st : KVStore) : Prop :=
  st.Pairwise (fun x y => lexLt x.key y.key = true)

/-! ### Transaction state and destruction (Database.cc:300-366)

`_state` is the tri-state integer: `0` neutral, `+1` dirty, `-1` failed.  The
destructor's observable effects are modelled as a trace of actions in program
order; `clearSlot` and `notify` are the body of `Database::endTransaction`
(`_file->_transaction = NULL; _file->_transactionCond.notify_one();`), and
`raise` is the final `check(status)`. -/

inductive TxnAction where
  | commit
  | rollback
  | clearSlot
  | notify
  | raise (s : FdbStatus)
deriving DecidableEq

/-- `Transaction::~Transaction` (Database.cc:345-356) together with the body of
`Database::endTransaction` (Database.cc:322-336), as the trace of its effects
and the final `_state`.  `commitStatus` is the outcome `fdb_commit` would
report if it runs; the result of `fdb_rollback` is discarded by the code. -/
def Transaction.destroy (state : Int) (commitStatus : FdbStatus) :
    List TxnAction × Int :=
  let status := if 0 < state then commitStatus else .success
  let state1 := if 0 < state ∧ commitStatus ≠ .success then -1 else state
  ((if 0 < state then [TxnAction.commit] else []) ++
   (if state1 < 0 then [TxnAction.rollback] else []) ++
   [TxnAction.clearSlot, TxnAction.notify] ++
   (if status = .success then [] else [TxnAction.raise status]),
   state1)

/-- `Transaction::check` (Database.cc:358-366): on success promote only
neutral to dirty; on failure set failed and rethrow the status. -/
def Transaction.check (state : Int) (s : FdbStatus) : Int × Option FdbStatus :=
  if s = .success then (if state = 0 then 1 else state, none)
  else (-1, some s)

/-- The `_state` reached from `state` after `Transaction::check` runs on each
status of `ops` in order. -/
def Transaction.runOps (state : Int) (ops : List FdbStatus) : Int :=
  ops.foldl (fun st s => (Transaction.check st s).1) state

/-! ### Transaction exclusion (Database.cc:303-343)

`Database::beginTransaction` locks `_file->_transactionMutex`, loops on
`_transactionCond.wait` while `_file->_transaction` is non-null, installs the
transaction and returns (the `unique_lock` releasing the mutex);
`Database::endTransaction` locks the mutex, clears the slot and notifies.
This is modelled as an interleaving transition system over thread IDs: mutex
acquisition/release and the condition-variable wait (atomically releasing the
mutex and later retrying the acquire) are the atomic steps. -/

inductive Pc where
  | idle
  | wantBegin
  | checking
  | installed
  | inTxn
  | endWant
  | endHave
deriving DecidableEq

structure Sys where
  lock : Option Nat
  slot : Option Nat
  pc : Nat → Pc

def Sys.init : Sys :=
  ⟨none, none, fun _ => Pc.idle⟩

def updPc (pc : Nat → Pc) (t : Nat) (p : Pc) : Nat → Pc :=
  fun u => if u = t then p else pc u

/-- One atomic step of thread `t` through `beginTransaction`/`endTransaction`.
`install` is the only transition that fills the slot, and it requires the slot
to be empty (the `while` loop's test under the mutex); `wait` is
`_transactionCond.wait(lock)` giving up the mutex. -/
inductive Step : Sys → Sys → Prop where
  | start (s : Sys) (t : Nat) :
      s.pc t = .idle →
      Step s ⟨s.lock, s.slot, updPc s.pc t .wantBegin⟩
  | acquire (s : Sys) (t : Nat) :
      s.pc t = .wantBegin → s.lock = none →
      Step s ⟨some t, s.slot, updPc s.pc t .checking⟩
  | install (s : Sys) (t : Nat) :
      s.pc t = .checking → s.lock = some t → s.slot = none →
      Step s ⟨some t, some t, updPc s.pc t .installed⟩
  | wait (s : Sys) (t u : Nat) :
      s.pc t = .checking → s.lock = some t → s.slot = some u →
      Step s ⟨none, s.slot, updPc s.pc t .wantBegin⟩
  | beginDone (s : Sys) (t : Nat) :
      s.pc t = .installed → s.lock = some t →
      Step s ⟨none, s.slot, updPc s.pc t .inTxn⟩
  | endStart (s : Sys) (t : Nat) :
      s.pc t = .inTxn →
      Step s ⟨s.lock, s.slot, updPc s.pc t .endWant⟩
  | endAcquire (s : Sys) (t : Nat) :
      s.pc t = .endWant → s.lock = none →
      Step s ⟨some t, s.slot, updPc s.pc t .endHave⟩
  | endDone (s : Sys) (t : Nat) :
      s.pc t = .endHave → s.lock = some t →
      Step s ⟨none, none, updPc s.pc t .idle⟩

inductive Reachable : Sys → Prop where
  | init : Reachable Sys.init
  | step {s s1 : Sys} : Reachable s → Step s s1 → Reachable s1

/-- A thread whose `Transaction` currently exists: from the successful install
until `endTransaction` clears the slot. -/
def InTxn (p : Pc) : Prop :=
  p = .installed ∨ p = .inTxn ∨ p = .endWant ∨ p = .endHave

/-- Program points at which a thread holds `_transactionMutex`. -/
def HoldsLock (p : Pc) : Prop :=
  p = .checking ∨ p = .installed ∨ p = .endHave

def SysInv (s : Sys) : Prop :=
  (∀ t, InTxn (s.pc t) → s.slot = some t) ∧
  (∀ t, HoldsLock (s.pc t) → s.lock = some t)

/-! ## Helper lemmas -/

theorem assocFind_assocSet (m : List (List Nat × Nat)) (k : List Nat) (v : Nat) :
    assocFind (assocSet m k v) k = some v := by
  induction m with
  | nil => simp [assocSet, assocFind]
  | cons e rest ih =>
    obtain ⟨k1, v1⟩ := e
    by_cases h : k1 = k
    · simp [assocSet, assocFind, h]
    · simp [assocSet, assocFind, h, ih]

theorem lookupShared_assocSet (m : List (List Nat × Nat)) (k : List Nat)
    (v : Nat) : lookupShared (assocSet m k v) k = v := by
  simp [lookupShared, assocFind_assocSet]

theorem set_append_cons (xs : List Nat) (y v : Nat) (zs : List Nat) :
    (xs ++ y :: zs).set xs.length v = xs ++ v :: zs := by
  induction xs with
  | nil => rfl
  | cons a as ih => simp [List.set, ih]

theorem get?_append_cons (xs : List Nat) (y : Nat) (zs : List Nat) :
    (xs ++ y :: zs).get? xs.length = some y := by
  induction xs with
  | nil => rfl
  | cons a as ih => simpa using ih

/-! ## C1 -/

/-- C1: the claim says `asString()` at the second occurrence of a twice-written
shareable string returns the bytes of the string by following the backward
reference.  Evaluating the code at `writeNull; writeString "abcd";
writeString "abcd"`: the second occurrence (offset 7) carries
`kSharedStringRefCode`, for which `value::asString` has no case and throws,
and even the patched first occurrence (offset 1, now `kSharedStringCode`)
throws because `asString` adds the parameter (the length 4) to `this` and
finds no `kStringCode` there. -/
theorem c1_shared_string_decode_fails :
    (((mkWriter none).writeNull.writeString [97, 98, 99, 100]).writeString
        [97, 98, 99, 100]).out = [0, 13, 4, 97, 98, 99, 100, 14, 6] ∧
    value.asString [0, 13, 4, 97, 98, 99, 100, 14, 6] 7 = none ∧
    value.asString [0, 13, 4, 97, 98, 99, 100, 14, 6] 1 = none := by
  decide

/-! ## C3 -/

/-- C3: the claim says `next()` never fails on well-formed values, advancing by
a constant for `kUInt64Code`/`kFloat32Code`/`kFloat64Code` and past the varint
for `kDateCode`/`kSharedStringRefCode`.  Evaluating the code: the output of
`writeDate(0)` is `[kDateCode, 0]`, and `value::next` reaches
`default: throw "bad typecode"` on it, as it does on `kUInt64Code`,
`kFloat32Code` and `kSharedStringRefCode` values; a `kStringCode` value by
contrast advances correctly. -/
theorem c3_next_throws_on_writer_codes :
    ((mkWriter none).writeDate 0).out = [11, 0] ∧
    value.next 100 [11, 0] 0 = none ∧
    value.next 100 [7, 0, 0, 0, 0, 0, 0, 0, 0] 0 = none ∧
    value.next 100 [8, 0, 0, 0, 0] 0 = none ∧
    value.next 100 [9, 0, 0, 0, 0, 0, 0, 0, 0] 0 = none ∧
    value.next 100 [14, 2] 0 = none ∧
    value.next 100 [12, 1, 97] 0 = some 3 := by
  decide

/-! ## C6 -/

/-- C6: the claim says `dict::get(k, hashCode(k))` returns the value written
after `k` whenever `k` is one of the dict's keys.  Evaluating the code on the
dict `{"aaaa": "aaaa"}` (written by `beginDict(1); writeKey("aaaa");
writeString("aaaa"); endDict`): the value shares the key's string, so the key's
tag was patched to `kSharedStringCode`, and `dict::get` throws
`"invalid shared-string"` inside `key->asString()` instead of returning the
value at offset 10. -/
theorem c6_dict_get_fails_on_shared_key :
    ((((mkWriter none).beginDict 1).writeKey [97, 97, 97, 97]).writeString
        [97, 97, 97, 97]).endDict.out =
      [19, 1, 135, 217, 13, 4, 97, 97, 97, 97, 14, 6] ∧
    dict.get 100 [19, 1, 135, 217, 13, 4, 97, 97, 97, 97, 14, 6] 0
      [97, 97, 97, 97] (dict.hashCode [97, 97, 97, 97]) = none := by
  decide

/-! ## C2 -/

/-- C2 counterexample: reading an absent sequence through
`DatabaseGetters::get(seq, opts)` surfaces a thrown `KeyNotFound`, not a
false/empty result — the sequence getter routes the status through `check`,
not `checkGet`. -/
theorem c2_counterexample :
    DatabaseGetters.getBySeq [] 1 false =
      Except.error FdbStatus.keyNotFound := by
  rfl

/-- C2 (amended): reads of an absent key through `get(key, opts)` and
`read(doc, opts)` are reported as a false return or a document with empty
meta/body and never as an exception, but a read of an absent sequence through
`get(seq, opts)` throws `KeyNotFound`. -/
theorem c2_amended (st : KVStore) (k : List Nat) (n : Nat) (mo : Bool)
    (hk : findByKey st k = none) (hn : findBySeq st n = none) :
    DatabaseGetters.read st (mkDoc k) mo = .ok (false, mkDoc k) ∧
    DatabaseGetters.get st k mo = .ok (mkDoc k) ∧
    DatabaseGetters.getBySeq st n mo = .error .keyNotFound := by
  have h1 : DatabaseGetters.read st (mkDoc k) mo = .ok (false, mkDoc k) := by
    simp [DatabaseGetters.read, fdb_get, Document.clearMetaAndBody, mkDoc,
      emptyDoc, hk, checkGet, check]
  refine ⟨h1, ?_, ?_⟩
  · simp [DatabaseGetters.get, h1]
  · simp [DatabaseGetters.getBySeq, fdb_get_byseq, emptyDoc, hn, check]

theorem c2_witness :
    DatabaseGetters.read [] (mkDoc [97]) false = .ok (false, mkDoc [97]) ∧
    DatabaseGetters.get [] [97] false = .ok (mkDoc [97]) ∧
    DatabaseGetters.getBySeq [] 1 false = .error .keyNotFound :=
  c2_amended [] [97] 1 false rfl rfl

/-! ## C8 -/

/-- C8 counterexample: at `u = 2 ^ 63 - 1` (which is below `2 ^ 63`) the claim
says `writeUInt(u)` emits exactly the bytes of `writeInt((int64_t)u)`, but the
code's comparison is `u < INT64_MAX = 2 ^ 63 - 1`, so it emits `kUInt64Code`
plus 8 little-endian bytes instead. -/
theorem c8_counterexample :
    ((mkWriter none).writeUInt (2 ^ 63 - 1)).out ≠
      ((mkWriter none).writeInt (Int.ofNat (2 ^ 63 - 1))).out := by
  decide

/-- C8 (amended): for `u < 2 ^ 63 - 1` (INT64_MAX, not `2 ^ 63`),
`writeUInt(u)` emits exactly the bytes of `writeInt((int64_t)u)`; for every
`u ≥ 2 ^ 63 - 1` it emits `kUInt64Code` followed by the 8 little-endian bytes
of `u`. -/
theorem c8_amended (w : dataWriter) (u : Nat) (_hu : u < 2 ^ 64) :
    (u < 2 ^ 63 - 1 → (w.writeUInt u).out = (w.writeInt (Int.ofNat u)).out) ∧
    (2 ^ 63 - 1 ≤ u →
      (w.writeUInt u).out = w.out ++ kUInt64Code :: nat64LE u) := by
  constructor
  · intro h
    unfold dataWriter.writeUInt
    rw [if_pos h]
  · intro h
    unfold dataWriter.writeUInt
    rw [if_neg (Nat.not_lt.mpr h)]

theorem c8_witness :
    ((mkWriter none).writeUInt 5).out =
      ((mkWriter none).writeInt (Int.ofNat 5)).out ∧
    ((mkWriter none).writeUInt (2 ^ 63)).out =
      (mkWriter none).out ++ kUInt64Code :: nat64LE (2 ^ 63) :=
  ⟨(c8_amended (mkWriter none) 5 (by norm_num)).1 (by norm_num),
   (c8_amended (mkWriter none) (2 ^ 63) (by norm_num)).2 (by norm_num)⟩

/-! ## C5 -/

/-- C5 counterexample: a fresh writer given the shareable string `"abcd"`
twice emits two plain `kStringCode` values and no `kSharedStringCode` or
`kSharedStringRefCode` at all — the first occurrence sits at offset 0 and
`sharedOffset > 0` treats a zero offset from the shared map as absence. -/
theorem c5_counterexample :
    (((mkWriter none).writeString [97, 98, 99, 100]).writeString
        [97, 98, 99, 100]).out =
      [12, 4, 97, 98, 99, 100, 12, 4, 97, 98, 99, 100] ∧
    (((mkWriter none).writeString [97, 98, 99, 100]).writeString
        [97, 98, 99, 100]).out.count kSharedStringCode = 0 ∧
    (((mkWriter none).writeString [97, 98, 99, 100]).writeString
        [97, 98, 99, 100]).out.get? 6 = some kStringCode := by
  decide

/-- C5 (amended): for a shareable string written twice with the first
occurrence at a nonzero offset (some byte already emitted), the region grows by
exactly `kStringCode + length varint + payload`, whose tag is then patched in
place to `kSharedStringCode` (payload and length unchanged), followed by
`kSharedStringRefCode` with varint `curOffset - firstOffset`; when the first
occurrence is at offset 0, the writer's shared map treats it as absent and
both occurrences remain plain `kStringCode` values. -/
theorem c5_amended (w : dataWriter) (s : List Nat)
    (hext : w.externLookup s = none)
    (h4 : 4 ≤ s.length) (h100 : s.length ≤ 100)
    (habsent : lookupShared w.sharedStrings s = 0)
    (hpos : 0 < w.out.length) :
    (w.writeString s).out =
      w.out ++ kStringCode :: (putUVarInt s.length ++ s) ∧
    ((w.writeString s).writeString s).out =
      (w.out ++ kSharedStringCode :: (putUVarInt s.length ++ s)) ++
        kSharedStringRefCode ::
          putUVarInt ((w.writeString s).out.length - w.out.length) ∧
    ((w.writeString s).writeString s).out.get? w.out.length =
      some kSharedStringCode ∧
    ((w.writeString s).writeString s).out.get? (w.writeString s).out.length =
      some kSharedStringRefCode := by
  have hshare : (4 ≤ s.length ∧ s.length ≤ 100) = True := by
    simp [h4, h100]
  have h1 : w.writeString s =
      { w with out := w.out ++ kStringCode :: (putUVarInt s.length ++ s),
               sharedStrings := assocSet w.sharedStrings s w.out.length } := by
    unfold dataWriter.writeString
    rw [hext]
    simp only [hshare, if_true, habsent, lt_irrefl, if_false]
    simp [List.cons_append]
  have hext2 : (w.writeString s).externLookup s = none := by
    rw [h1]; exact hext
  have hlook : lookupShared (w.writeString s).sharedStrings s = w.out.length := by
    rw [h1]; exact lookupShared_assocSet _ _ _
  have h2 : ((w.writeString s).writeString s).out =
      ((w.writeString s).out.set w.out.length kSharedStringCode) ++
        kSharedStringRefCode ::
          putUVarInt ((w.writeString s).out.length - w.out.length) := by
    conv_lhs => rw [dataWriter.writeString]
    rw [hext2]
    simp only [hshare, if_true, hlook, hpos, if_pos hpos]
  have hset : (w.writeString s).out.set w.out.length kSharedStringCode =
      w.out ++ kSharedStringCode :: (putUVarInt s.length ++ s) := by
    rw [h1]
    exact set_append_cons w.out kStringCode kSharedStringCode
      (putUVarInt s.length ++ s)
  have hout1 : (w.writeString s).out =
      w.out ++ kStringCode :: (putUVarInt s.length ++ s) := by rw [h1]
  refine ⟨hout1, by rw [h2, hset], ?_, ?_⟩
  · rw [h2, hset]
    have := get?_append_cons w.out kSharedStringCode
      ((putUVarInt s.length ++ s) ++
        kSharedStringRefCode ::
          putUVarInt ((w.writeString s).out.length - w.out.length))
    simpa using this
  · rw [h2, hset]
    have hlen : (w.out ++ kSharedStringCode :: (putUVarInt s.length ++ s)).length
        = (w.writeString s).out.length := by
      rw [hout1]; simp
    calc ((w.out ++ kSharedStringCode :: (putUVarInt s.length ++ s)) ++
            kSharedStringRefCode ::
              putUVarInt ((w.writeString s).out.length - w.out.length)).get?
            (w.writeString s).out.length
        = ((w.out ++ kSharedStringCode :: (putUVarInt s.length ++ s)) ++
            kSharedStringRefCode ::
              putUVarInt ((w.writeString s).out.length - w.out.length)).get?
            (w.out ++ kSharedStringCode :: (putUVarInt s.length ++ s)).length := by
          rw [hlen]
      _ = some kSharedStringRefCode := get?_append_cons _ _ _

theorem c5_witness :
    (((mkWriter none).writeNull.writeString [97, 98, 99, 100]).writeString
        [97, 98, 99, 100]).out =
      ([0] ++ kSharedStringCode :: (putUVarInt 4 ++ [97, 98, 99, 100])) ++
        kSharedStringRefCode :: putUVarInt 6 ∧
    (((mkWriter none).writeNull.writeString [97, 98, 99, 100]).writeString
        [97, 98, 99, 100]).out.get? 1 = some kSharedStringCode ∧
    (((mkWriter none).writeNull.writeString [97, 98, 99, 100]).writeString
        [97, 98, 99, 100]).out.get? 7 = some kSharedStringRefCode :=
  have h := c5_amended (mkWriter none).writeNull [97, 98, 99, 100] rfl
    (by norm_num) (by norm_num) rfl (by decide)
  ⟨h.2.1, h.2.2.1, h.2.2.2⟩

/-! ## C7 -/

/-- C7: destroying a `Transaction` commits when dirty (flipping the state to
failed when the commit fails), rolls back when failed, does neither when
neutral, and in every case clears the owning `File`'s transaction slot and
signals waiters before any error is surfaced: every `raise` in the trace comes
after the `clearSlot`. -/
theorem c7_destructor (st : Int) (cs : FdbStatus) :
    TxnAction.clearSlot ∈ (Transaction.destroy st cs).1 ∧
    TxnAction.notify ∈ (Transaction.destroy st cs).1 ∧
    (0 < st → TxnAction.commit ∈ (Transaction.destroy st cs).1) ∧
    (0 < st → cs ≠ .success →
      (Transaction.destroy st cs).2 = -1 ∧
      TxnAction.rollback ∈ (Transaction.destroy st cs).1 ∧
      TxnAction.raise cs ∈ (Transaction.destroy st cs).1) ∧
    (st < 0 → TxnAction.rollback ∈ (Transaction.destroy st cs).1 ∧
      TxnAction.commit ∉ (Transaction.destroy st cs).1) ∧
    (st = 0 →
      (Transaction.destroy st cs).1 = [TxnAction.clearSlot, TxnAction.notify]) ∧
    (∃ pre post, (Transaction.destroy st cs).1 =
        pre ++ TxnAction.clearSlot :: post ∧
      ∀ e, TxnAction.raise e ∉ pre) := by
  rcases lt_trichotomy st 0 with h | h | h
  · have hn : ¬ (0 : Int) < st := by omega
    have htr : (Transaction.destroy st cs).1 =
        [TxnAction.rollback, TxnAction.clearSlot, TxnAction.notify] := by
      simp [Transaction.destroy, hn, h]
    have hs2 : (Transaction.destroy st cs).2 = st := by
      simp [Transaction.destroy, hn]
    rw [htr, hs2]
    exact ⟨by simp, by simp, fun hc => absurd hc hn, fun hc => absurd hc hn,
      fun _ => ⟨by simp, by simp⟩, fun h0 => absurd h0 (by omega),
      ⟨[TxnAction.rollback], [TxnAction.notify], rfl, by simp⟩⟩
  · subst h
    have htr : (Transaction.destroy 0 cs).1 =
        [TxnAction.clearSlot, TxnAction.notify] := by
      simp [Transaction.destroy]
    have hs2 : (Transaction.destroy 0 cs).2 = 0 := by
      simp [Transaction.destroy]
    rw [htr, hs2]
    exact ⟨by simp, by simp, fun hc => absurd hc (by omega),
      fun hc => absurd hc (by omega), fun hc => absurd hc (by omega),
      fun _ => rfl, ⟨[], [TxnAction.notify], rfl, by simp⟩⟩
  · have hn : ¬ st < 0 := by omega
    by_cases hcs : cs = .success
    · subst hcs
      have htr : (Transaction.destroy st .success).1 =
          [TxnAction.commit, TxnAction.clearSlot, TxnAction.notify] := by
        simp [Transaction.destroy, h, hn]
      have hs2 : (Transaction.destroy st .success).2 = st := by
        simp [Transaction.destroy, hn]
      rw [htr, hs2]
      exact ⟨by simp, by simp, fun _ => by simp,
        fun _ hne => absurd rfl hne, fun hc => absurd hc hn,
        fun h0 => absurd h0 (by omega),
        ⟨[TxnAction.commit], [TxnAction.notify], rfl, by simp⟩⟩
    · have htr : (Transaction.destroy st cs).1 =
          [TxnAction.commit, TxnAction.rollback, TxnAction.clearSlot,
           TxnAction.notify, TxnAction.raise cs] := by
        simp [Transaction.destroy, h, hcs]
      have hs2 : (Transaction.destroy st cs).2 = -1 := by
        simp [Transaction.destroy, h, hcs]
      rw [htr, hs2]
      exact ⟨by simp, by simp, fun _ => by simp,
        fun _ _ => ⟨rfl, by simp, by simp⟩, fun hc => absurd hc (by omega),
        fun h0 => absurd h0 (by omega),
        ⟨[TxnAction.commit, TxnAction.rollback],
         [TxnAction.notify, TxnAction.raise cs], rfl, by simp⟩⟩

theorem c7_witness :
    TxnAction.clearSlot ∈ (Transaction.destroy 1 FdbStatus.otherError).1 ∧
    TxnAction.notify ∈ (Transaction.destroy 1 FdbStatus.otherError).1 ∧
    TxnAction.commit ∈ (Transaction.destroy 1 FdbStatus.otherError).1 ∧
    (Transaction.destroy 1 FdbStatus.otherError).2 = -1 ∧
    TxnAction.rollback ∈ (Transaction.destroy 1 FdbStatus.otherError).1 ∧
    TxnAction.raise FdbStatus.otherError ∈
      (Transaction.destroy 1 FdbStatus.otherError).1 ∧
    TxnAction.rollback ∈ (Transaction.destroy (-1) FdbStatus.success).1 ∧
    TxnAction.commit ∉ (Transaction.destroy (-1) FdbStatus.success).1 ∧
    (Transaction.destroy 0 FdbStatus.success).1 =
      [TxnAction.clearSlot, TxnAction.notify] :=
  have ha := c7_destructor 1 FdbStatus.otherError
  have hb := c7_destructor (-1) FdbStatus.success
  have hc := c7_destructor 0 FdbStatus.success
  have ha4 := ha.2.2.2.1 (by norm_num) (by simp)
  ⟨ha.1, ha.2.1, ha.2.2.1 (by norm_num), ha4.1, ha4.2.1, ha4.2.2,
   (hb.2.2.2.2.1 (by norm_num)).1, (hb.2.2.2.2.1 (by norm_num)).2,
   hc.2.2.2.2.2.1 rfl⟩

/-! ## C10 -/

/-- C10: `Transaction::check` promotes only neutral (0) to dirty (+1) on
success, so once the state is failed (-1) any run of successful operations
leaves it failed, and the destructor then rolls back without committing. -/
theorem c10_failed_is_sticky (ops : List FdbStatus) (cs : FdbStatus)
    (hops : ∀ o ∈ ops, o = .success) :
    (∀ state : Int,
      (Transaction.check state .success).1 = if state = 0 then 1 else state) ∧
    Transaction.runOps (-1) ops = -1 ∧
    TxnAction.rollback ∈
      (Transaction.destroy (Transaction.runOps (-1) ops) cs).1 ∧
    TxnAction.commit ∉
      (Transaction.destroy (Transaction.runOps (-1) ops) cs).1 := by
  have hrun : ∀ (l : List FdbStatus), (∀ o ∈ l, o = .success) →
      Transaction.runOps (-1) l = -1 := by
    intro l
    induction l with
    | nil => intro _; rfl
    | cons o rest ih =>
      intro hl
      have ho : o = .success := hl o (by simp)
      subst ho
      have step : (Transaction.check (-1) FdbStatus.success).1 = -1 := by
        simp [Transaction.check]
      simp only [Transaction.runOps, List.foldl_cons, step]
      exact ih fun o hmem => hl o (List.mem_cons_of_mem _ hmem)
  have h2 := hrun ops hops
  refine ⟨fun state => by simp [Transaction.check], h2, ?_, ?_⟩
  · rw [h2]
    simp [Transaction.destroy]
  · rw [h2]
    simp [Transaction.destroy]

theorem c10_witness :
    (Transaction.check 5 FdbStatus.success).1 = (if (5 : Int) = 0 then 1 else 5) ∧
    Transaction.runOps (-1) [FdbStatus.success, FdbStatus.success] = -1 ∧
    TxnAction.rollback ∈
      (Transaction.destroy
        (Transaction.runOps (-1) [FdbStatus.success, FdbStatus.success])
        FdbStatus.success).1 ∧
    TxnAction.commit ∉
      (Transaction.destroy
        (Transaction.runOps (-1) [FdbStatus.success, FdbStatus.success])
        FdbStatus.success).1 :=
  have h := c10_failed_is_sticky [FdbStatus.success, FdbStatus.success]
    FdbStatus.success (by simp)
  ⟨h.1 5, h.2.1, h.2.2.1, h.2.2.2⟩

/-! ## C9 -/

theorem updPc_same (pc : Nat → Pc) (t : Nat) (p : Pc) : updPc pc t p t = p := by
  simp [updPc]

theorem updPc_other {t u : Nat} (h : u ≠ t) (pc : Nat → Pc) (p : Pc) :
    updPc pc t p u = pc u := by
  simp [updPc, h]

theorem sysInv_init : SysInv Sys.init := by
  constructor <;> intro t ht <;>
    simp [Sys.init, InTxn, HoldsLock] at ht

theorem sysInv_step {s s1 : Sys} (hinv : SysInv s) (hs : Step s s1) :
    SysInv s1 := by
  obtain ⟨hslot, hlock⟩ := hinv
  cases hs with
  | start t hpc =>
    refine ⟨fun u hu => ?_, fun u hu => ?_⟩ <;> by_cases hut : u = t
    · subst hut; simp [updPc_same, InTxn] at hu
    · simp only [updPc_other hut] at hu; exact hslot u hu
    · subst hut; simp [updPc_same, HoldsLock] at hu
    · simp only [updPc_other hut] at hu; exact hlock u hu
  | acquire t hpc hl =>
    refine ⟨fun u hu => ?_, fun u hu => ?_⟩
    · by_cases hut : u = t
      · subst hut; simp [updPc_same, InTxn] at hu
      · simp only [updPc_other hut] at hu; exact hslot u hu
    · by_cases hut : u = t
      · subst hut; rfl
      · simp only [updPc_other hut] at hu
        have := hlock u hu
        rw [hl] at this
        exact absurd this (by simp)
  | install t hpc hl hsl =>
    refine ⟨fun u hu => ?_, fun u hu => ?_⟩
    · by_cases hut : u = t
      · subst hut; rfl
      · simp only [updPc_other hut] at hu
        have := hslot u hu
        rw [hsl] at this
        exact absurd this (by simp)
    · by_cases hut : u = t
      · subst hut; rfl
      · simp only [updPc_other hut] at hu
        have := hlock u hu
        exact hl ▸ this
  | wait t u0 hpc hl hsl =>
    refine ⟨fun u hu => ?_, fun u hu => ?_⟩
    · by_cases hut : u = t
      · subst hut; simp [updPc_same, InTxn] at hu
      · simp only [updPc_other hut] at hu; exact hslot u hu
    · by_cases hut : u = t
      · subst hut; simp [updPc_same, HoldsLock] at hu
      · simp only [updPc_other hut] at hu
        have := hlock u hu
        rw [hl] at this
        exact absurd (Option.some_injective _ this.symm) hut
  | beginDone t hpc hl =>
    refine ⟨fun u hu => ?_, fun u hu => ?_⟩
    · by_cases hut : u = t
      · exact hslot u (by rw [hut]; exact Or.inl hpc)
      · simp only [updPc_other hut] at hu; exact hslot u hu
    · by_cases hut : u = t
      · subst hut; simp [updPc_same, HoldsLock] at hu
      · simp only [updPc_other hut] at hu
        have := hlock u hu
        rw [hl] at this
        exact absurd (Option.some_injective _ this.symm) hut
  | endStart t hpc =>
    refine ⟨fun u hu => ?_, fun u hu => ?_⟩
    · by_cases hut : u = t
      · exact hslot u (by rw [hut]; exact Or.inr (Or.inl hpc))
      · simp only [updPc_other hut] at hu; exact hslot u hu
    · by_cases hut : u = t
      · subst hut; simp [updPc_same, HoldsLock] at hu
      · simp only [updPc_other hut] at hu; exact hlock u hu
  | endAcquire t hpc hl =>
    refine ⟨fun u hu => ?_, fun u hu => ?_⟩
    · by_cases hut : u = t
      · exact hslot u (by rw [hut]; exact Or.inr (Or.inr (Or.inl hpc)))
      · simp only [updPc_other hut] at hu; exact hslot u hu
    · by_cases hut : u = t
      · subst hut; rfl
      · simp only [updPc_other hut] at hu
        have := hlock u hu
        rw [hl] at this
        exact absurd this (by simp)
  | endDone t hpc hl =>
    refine ⟨fun u hu => ?_, fun u hu => ?_⟩
    · by_cases hut : u = t
      · subst hut; simp [updPc_same, InTxn] at hu
      · simp only [updPc_other hut] at hu
        have h1 := hslot u hu
        have h2 := hslot t (Or.inr (Or.inr (Or.inr hpc)))
        rw [h1] at h2
        exact absurd (Option.some_injective _ h2) (fun he => hut he)
    · by_cases hut : u = t
      · subst hut; simp [updPc_same, HoldsLock] at hu
      · simp only [updPc_other hut] at hu
        have := hlock u hu
        rw [hl] at this
        exact absurd (Option.some_injective _ this.symm) hut

theorem sysInv_reachable {s : Sys} (h : Reachable s) : SysInv s := by
  induction h with
  | init => exact sysInv_init
  | step _ hs ih => exact sysInv_step ih hs

/-- C9: in every reachable state of the transaction-exclusion protocol, at
most one thread is between a successful `beginTransaction` install and the
slot-clearing in `endTransaction` (so at most one `Transaction` occupies a
`File`'s slot at any moment), and a step can move a thread into that phase
only from a state whose slot is empty — with a non-empty slot the checking
thread can only go back to waiting. -/
theorem c9_transaction_exclusion (s : Sys) (hr : Reachable s) :
    (∀ t u, InTxn (s.pc t) → InTxn (s.pc u) → t = u) ∧
    (∀ s1 t, Step s s1 → ¬ InTxn (s.pc t) → InTxn (s1.pc t) →
      s.slot = none) := by
  constructor
  · intro t u ht hu
    have h1 := (sysInv_reachable hr).1 t ht
    have h2 := (sysInv_reachable hr).1 u hu
    rw [h1] at h2
    exact Option.some_injective _ h2
  · intro s1 t hs hnot hin
    cases hs with
    | start t1 hpc =>
      by_cases hut : t = t1
      · subst hut; simp [updPc_same, InTxn] at hin
      · simp only [updPc_other hut] at hin; exact absurd hin hnot
    | acquire t1 hpc hl =>
      by_cases hut : t = t1
      · subst hut; simp [updPc_same, InTxn] at hin
      · simp only [updPc_other hut] at hin; exact absurd hin hnot
    | install t1 hpc hl hsl => exact hsl
    | wait t1 u0 hpc hl hsl =>
      by_cases hut : t = t1
      · subst hut; simp [updPc_same, InTxn] at hin
      · simp only [updPc_other hut] at hin; exact absurd hin hnot
    | beginDone t1 hpc hl =>
      by_cases hut : t = t1
      · subst hut; exact absurd (Or.inl hpc) hnot
      · simp only [updPc_other hut] at hin; exact absurd hin hnot
    | endStart t1 hpc =>
      by_cases hut : t = t1
      · subst hut; exact absurd (Or.inr (Or.inl hpc)) hnot
      · simp only [updPc_other hut] at hin; exact absurd hin hnot
    | endAcquire t1 hpc hl =>
      by_cases hut : t = t1
      · subst hut; exact absurd (Or.inr (Or.inr (Or.inl hpc))) hnot
      · simp only [updPc_other hut] at hin; exact absurd hin hnot
    | endDone t1 hpc hl =>
      by_cases hut : t = t1
      · subst hut; simp [updPc_same, InTxn] at hin
      · simp only [updPc_other hut] at hin; exact absurd hin hnot

/-- A concrete run: thread 0 starts, acquires the mutex, finds the slot empty,
installs itself, and releases the mutex. -/
def demoS1 : Sys := ⟨none, none, updPc Sys.init.pc 0 .wantBegin⟩

def demoS2 : Sys := ⟨some 0, none, updPc demoS1.pc 0 .checking⟩

def demoS3 : Sys := ⟨some 0, some 0, updPc demoS2.pc 0 .installed⟩

def demoS4 : Sys := ⟨none, some 0, updPc demoS3.pc 0 .inTxn⟩

theorem demoStep1 : Step Sys.init demoS1 := Step.start Sys.init 0 rfl

theorem demoStep2 : Step demoS1 demoS2 := Step.acquire demoS1 0 rfl rfl

theorem demoStep3 : Step demoS2 demoS3 := Step.install demoS2 0 rfl rfl rfl

theorem demoStep4 : Step demoS3 demoS4 := Step.beginDone demoS3 0 rfl rfl

theorem demoReach2 : Reachable demoS2 :=
  .step (.step .init demoStep1) demoStep2

theorem demoReach4 : Reachable demoS4 :=
  .step (.step demoReach2 demoStep3) demoStep4

theorem c9_witness :
    (0 : Nat) = 0 ∧ demoS2.slot = none :=
  ⟨(c9_transaction_exclusion demoS4 demoReach4).1 0 0
      (Or.inr (Or.inl rfl)) (Or.inr (Or.inl rfl)),
   (c9_transaction_exclusion demoS2 demoReach2).2 demoS3 0 demoStep3
      (by simp [demoS2, demoS1, Sys.init, updPc, InTxn])
      (Or.inl rfl)⟩

/-! ## C4

Order facts about the byte-lexicographic comparison, the agreement of seeking
with direct lookup on a sorted store, and the run of the enumerator. -/

theorem lexLt_nil_right (a : List Nat) : lexLt a [] = false := by
  cases a <;> rfl

theorem lexLt_irrefl (a : List Nat) : lexLt a a = false := by
  induction a with
  | nil => rfl
  | cons x xs ih => simp [lexLt, ih]

theorem lexLt_trans {a b c : List Nat} (hab : lexLt a b = true)
    (hbc : lexLt b c = true) : lexLt a c = true := by
  induction a generalizing b c with
  | nil =>
    cases c with
    | nil => rw [lexLt_nil_right] at hbc; exact absurd hbc (by simp)
    | cons z zs => rfl
  | cons x xs ih =>
    cases b with
    | nil => rw [lexLt_nil_right] at hab; exact absurd hab (by simp)
    | cons y ys =>
      cases c with
      | nil => rw [lexLt_nil_right] at hbc; exact absurd hbc (by simp)
      | cons z zs =>
        simp only [lexLt] at hab hbc ⊢
        split_ifs at hab hbc ⊢ <;>
          first
            | rfl
            | omega
            | exact ih hab hbc

theorem lexLt_connex {a b : List Nat} (hab : lexLt a b = false)
    (hba : lexLt b a = false) : a = b := by
  induction a generalizing b with
  | nil =>
    cases b with
    | nil => rfl
    | cons y ys => simp [lexLt] at hab
  | cons x xs ih =>
    cases b with
    | nil => simp [lexLt] at hba
    | cons y ys =>
      simp only [lexLt] at hab hba
      by_cases h1 : x < y
      · rw [if_pos h1] at hab
        exact absurd hab (by simp)
      · rw [if_neg h1] at hab
        by_cases h2 : y < x
        · rw [if_pos h2] at hba
          exact absurd hba (by simp)
        · rw [if_neg h2, if_neg h1] at hba
          rw [if_neg h2] at hab
          have hxy : x = y := by omega
          rw [hxy, ih hab hba]

instance : IsTrans (List Nat) keyLe := by
  constructor
  intro a b c hab hbc
  have hab1 : lexLt b a = false := by
    simpa [keyLe, lexLe] using hab
  have hbc1 : lexLt c b = false := by
    simpa [keyLe, lexLe] using hbc
  have : lexLt c a = false := by
    cases hca : lexLt c a
    · rfl
    · exfalso
      cases hbc2 : lexLt b c
      · have hcb : c = b := lexLt_connex hbc1 hbc2
        rw [hcb] at hca
        rw [hab1] at hca
        exact absurd hca (by simp)
      · have h3 : lexLt b a = true := lexLt_trans hbc2 hca
        rw [hab1] at h3
        exact absurd h3 (by simp)
  simpa [keyLe, lexLe] using this

instance : IsTotal (List Nat) keyLe := by
  constructor
  intro a b
  cases h : lexLt b a
  · exact Or.inl (by simpa [keyLe, lexLe] using h)
  · cases h2 : lexLt a b
    · exact Or.inr (by simpa [keyLe, lexLe] using h2)
    · have := lexLt_trans h h2
      rw [lexLt_irrefl] at this
      exact absurd this (by simp)

/-- On a store whose keys ascend strictly, seeking to the first key not below
`d` and then comparing keys is the same as a direct lookup of `d`. -/
theorem seekDocFor_eq_docFor (st : KVStore) (mo : Bool) (d : List Nat)
    (h : StoreSorted st) : seekDocFor st mo d = docFor st mo d := by
  induction st with
  | nil => rfl
  | cons sd rest ih =>
    rw [StoreSorted, List.pairwise_cons] at h
    obtain ⟨hall, htail⟩ := h
    by_cases hle : lexLe d sd.key = true
    · have hseek : List.find? (fun x => lexLe d x.key) (sd :: rest) = some sd :=
        List.find?_cons_of_pos rest hle
      by_cases heq : sd.key = d
      · have hkd : (sd.key == d) = true := by simpa using heq
        have hfind : List.find? (fun x => x.key == d) (sd :: rest) = some sd :=
          List.find?_cons_of_pos rest hkd
        simp [seekDocFor, docFor, seekGeq, findByKey, hseek, hfind, heq]
      · have hgt : lexLt sd.key d = false := by
          simpa [lexLe] using hle
        have hlt : lexLt d sd.key = true := by
          cases hq : lexLt d sd.key
          · exact absurd (lexLt_connex hq hgt) fun he => heq he.symm
          · rfl
        have hnone : findByKey rest d = none := by
          rw [findByKey]
          apply List.find?_eq_none.mpr
          intro x hx
          have h1 : lexLt d x.key = true := lexLt_trans hlt (hall x hx)
          have h2 : x.key ≠ d := by
            intro he
            rw [he, lexLt_irrefl] at h1
            exact absurd h1 (by simp)
          simpa using h2
        have hkd : (sd.key == d) = false := by simpa using heq
        have hfind : List.find? (fun x => x.key == d) (sd :: rest) =
            List.find? (fun x => x.key == d) rest :=
          List.find?_cons_of_neg rest (by simp [hkd])
        have hnone2 : List.find? (fun x => x.key == d) rest = none := hnone
        simp [seekDocFor, docFor, seekGeq, findByKey, hseek, hfind, hnone2, heq]
    · have hlt : lexLt sd.key d = true := by
        cases hq : lexLt sd.key d
        · exact absurd (by simp [lexLe, hq] : lexLe d sd.key = true) hle
        · rfl
      have hkd : (sd.key == d) = false := by
        have : sd.key ≠ d := by
          intro he
          rw [he, lexLt_irrefl] at hlt
          exact absurd hlt (by simp)
        simpa using this
      have hle2 : (lexLe d sd.key) = false := by
        simp only [Bool.not_eq_true] at hle
        exact hle
      have hseek : List.find? (fun x => lexLe d x.key) (sd :: rest) =
          List.find? (fun x => lexLe d x.key) rest :=
        List.find?_cons_of_neg rest (by simp [hle2])
      have hfind : List.find? (fun x => x.key == d) (sd :: rest) =
          List.find? (fun x => x.key == d) rest :=
        List.find?_cons_of_neg rest (by simp [hkd])
      have hrec := ih htail
      simp only [seekDocFor, seekGeq, docFor, findByKey] at hrec ⊢
      rw [hseek, hfind]
      exact hrec

/-- Running the enumerator over an open state with IDs remaining, with enough
fuel, yields exactly one seeked document per ID and ends closed. -/
theorem drainAux_run (st : KVStore) (mo : Bool) :
    ∀ (ids : List (List Nat)) (fuel : Nat), ids.length < fuel →
      drainAux st fuel ⟨true, mo, ids⟩ =
        (ids.map (seekDocFor st mo), ⟨false, mo, []⟩) := by
  intro ids
  induction ids with
  | nil =>
    intro fuel hf
    match fuel, hf with
    | f + 1, _ => simp [drainAux, DocEnumerator.next]
  | cons d rest ih =>
    intro fuel hf
    match fuel, hf with
    | f + 1, hf =>
      have hrec := ih f (by simpa using hf)
      simp [drainAux, DocEnumerator.next, hrec]

/-- C4: `enumerate(docIDs, opts)` sorts the requested IDs ascending (the
sorted list is ordered by `keyLe` and is a permutation of the input), the
enumerator yields exactly one document per requested ID in that order — the
stored document when the ID exists, an empty placeholder carrying the
requested ID otherwise — and once the IDs are exhausted `next` keeps
returning false. -/
theorem c4_enumerate (st : KVStore) (ids : List (List Nat)) (mo : Bool)
    (h : StoreSorted st) :
    List.Sorted keyLe (sortIDs ids) ∧
    (sortIDs ids).Perm ids ∧
    (drain st (enumerate ids mo)).1 = (sortIDs ids).map (docFor st mo) ∧
    (drain st (enumerate ids mo)).2.next st =
      (none, (drain st (enumerate ids mo)).2) := by
  have hfun : seekDocFor st mo = docFor st mo :=
    funext fun d => seekDocFor_eq_docFor st mo d h
  refine ⟨List.sorted_insertionSort keyLe ids,
    List.perm_insertionSort keyLe ids, ?_, ?_⟩
  · by_cases hid : ids.isEmpty
    · have hnil : ids = [] := by
        cases ids
        · rfl
        · simp at hid
      subst hnil
      simp [enumerate, drain, drainAux, DocEnumerator.next, sortIDs,
        List.insertionSort]
    · have he : enumerate ids mo = ⟨true, mo, sortIDs ids⟩ := by
        simp [enumerate, hid]
      rw [he, drain,
        drainAux_run st mo (sortIDs ids) _ (Nat.lt_succ_self _), hfun]
  · by_cases hid : ids.isEmpty
    · have hnil : ids = [] := by
        cases ids
        · rfl
        · simp at hid
      subst hnil
      simp [enumerate, drain, drainAux, DocEnumerator.next, sortIDs,
        List.insertionSort]
    · have he : enumerate ids mo = ⟨true, mo, sortIDs ids⟩ := by
        simp [enumerate, hid]
      rw [he, drain,
        drainAux_run st mo (sortIDs ids) _ (Nat.lt_succ_self _)]
      simp [DocEnumerator.next]

theorem c4_witness :
    List.Sorted keyLe (sortIDs [[98], [99], [97]]) ∧
    (sortIDs [[98], [99], [97]]).Perm [[98], [99], [97]] ∧
    (drain
      [⟨[97], [1], [65], 1, false⟩, ⟨[99], [2], [67], 2, false⟩,
       ⟨[101], [3], [69], 3, false⟩]
      (enumerate [[98], [99], [97]] false)).1 =
      (sortIDs [[98], [99], [97]]).map
        (docFor
          [⟨[97], [1], [65], 1, false⟩, ⟨[99], [2], [67], 2, false⟩,
           ⟨[101], [3], [69], 3, false⟩] false) ∧
    (drain
      [⟨[97], [1], [65], 1, false⟩, ⟨[99], [2], [67], 2, false⟩,
       ⟨[101], [3], [69], 3, false⟩]
      (enumerate [[98], [99], [97]] false)).2.next
        [⟨[97], [1], [65], 1, false⟩, ⟨[99], [2], [67], 2, false⟩,
         ⟨[101], [3], [69], 3, false⟩] =
      (none,
       (drain
        [⟨[97], [1], [65], 1, false⟩, ⟨[99], [2], [67], 2, false⟩,
         ⟨[101], [3], [69], 3, false⟩]
        (enumerate [[98], [99], [97]] false)).2) :=
  c4_enumerate
    [⟨[97], [1], [65], 1, false⟩, ⟨[99], [2], [67], 2, false⟩,
     ⟨[101], [3], [69], 3, false⟩]
    [[98], [99], [97]] false
    (by simp [StoreSorted, List.pairwise_cons]; decide)

end forestdb
